import Mathlib

/-!
Verification of the `integer-cbrt` crate: a digit-by-digit (base-8) integer
cube root for all primitive fixed-width integer types.

The Rust source (`src/lib.rs`) implements, generically over a primitive
integer type `T`:

  fn integer_cbrt_checked(&self) -> Option<Self> {
      match self.cmp(&T::zero()) {
          Ordering::Less => return None,
          Ordering::Equal => return Some(T::zero()),
          _ => {}
      }
      let one = T::one();
      let three = one + one + one;
      let num_bits = T::zero().leading_zeros();
      let mut x = *self;
      let mut result = T::zero();
      for s in (0..num_bits).step_by(3).rev() {
          result = result + result;
          let b = three * result * (result + one) + one;
          if (x >> s as usize) >= b {
              x = x - (b << s as usize);
              result = result + one;
          }
      }
      Some(result)
  }

  fn integer_cbrt(&self) -> Self {
      self.integer_cbrt_checked()
          .expect("cannot calculate cube root of negative number")
  }

We model a primitive integer type by its bit width and signedness, the
values of the type by mathematical integers in the representable range,
and the loop body three ways:

* `cbrtStep` / `cbrtNat`: exact natural-number arithmetic;
* `cbrtStepWrap`: the machine (release-mode) semantics, in which every
  arithmetic operation wraps to the type's range (two's complement for
  signed types) and right shift on a signed type is an arithmetic shift
  (floor division);
* `cbrtStepStrict`: an overflow-trapping semantics that returns `none`
  as soon as any intermediate value leaves `[0, maxVal]` or a shift
  amount reaches the bit width.

The development proves that on every representable input the three
semantics agree (so that no intermediate overflows) and that the result
is the floor cube root.
-/

/-- A primitive fixed-width integer type: its total bit width (`u64` has
`bits = 64`, and `i64` also has `bits = 64`) and its signedness. -/
structure IntTy where
  bits : Nat
  signed : Bool
deriving DecidableEq

/-- Largest representable value of the type, as a natural number. -/
def IntTy.maxVal (ty : IntTy) : Nat :=
  if ty.signed then 2 ^ (ty.bits - 1) - 1 else 2 ^ ty.bits - 1

/-- Smallest representable value of the type. -/
def IntTy.minVal (ty : IntTy) : Int :=
  if ty.signed then -(2 ^ (ty.bits - 1) : Int) else 0

/-- `v` is representable in the type. -/
def IntTy.inRange (ty : IntTy) (v : Int) : Prop :=
  ty.minVal ≤ v ∧ v ≤ (ty.maxVal : Int)

/-- The primitive integer types the crate supports: widths 8, 16, 32, 64
and 128 bits (the pointer-sized `isize`/`usize` are 64-bit here), both
signednesses. -/
def Supported (ty : IntTy) : Prop :=
  ty.bits = 8 ∨ ty.bits = 16 ∨ ty.bits = 32 ∨ ty.bits = 64 ∨ ty.bits = 128

instance (ty : IntTy) : Decidable (Supported ty) := by
  unfold Supported; infer_instance

/-- The sequence of shift amounts of the loop: `(0..num_bits).step_by(3).rev()`,
the multiples of 3 below the bit width, in descending order. -/
def shiftSequence (numBits : Nat) : List Nat :=
  ((List.range numBits).filter (fun s => s % 3 == 0)).reverse

/-- One iteration of the loop body, in exact natural-number arithmetic:
`result = result + result; b = three * result * (result + one) + one;
if (x >> s) >= b { x = x - (b << s); result = result + one }`. -/
def cbrtStep (s : Nat) (st : Nat × Nat) : Nat × Nat :=
  let x := st.1
  let result := st.2 + st.2
  let b := 3 * result * (result + 1) + 1
  if b ≤ x >>> s then (x - b <<< s, result + 1) else (x, result)

/-- The whole loop of `integer_cbrt_checked` on a (positive) value, in
exact natural-number arithmetic. -/
def cbrtNat (numBits : Nat) (v : Nat) : Nat :=
  ((shiftSequence numBits).foldl (fun st s => cbrtStep s st) (v, 0)).2

/-- `integer_cbrt_checked`: `None` for negative input, `Some 0` for zero,
otherwise the loop result. -/
def integer_cbrt_checked (ty : IntTy) (v : Int) : Option Int :=
  if v < 0 then none
  else if v = 0 then some 0
  else some (cbrtNat ty.bits v.toNat)

/-- `integer_cbrt`: unwraps `integer_cbrt_checked`, escalating `None`
into a panic (modelled as `Except.error`) with the source's message. -/
def integer_cbrt (ty : IntTy) (v : Int) : Except String Int :=
  match integer_cbrt_checked ty v with
  | some r => Except.ok r
  | none => Except.error "cannot calculate cube root of negative number"

/-- Reduction of an integer to the representable range of the type by
wrap-around: modular reduction for an unsigned type, two's complement
reduction for a signed one. -/
def wrapVal (ty : IntTy) (i : Int) : Int :=
  if ty.signed then (i + 2 ^ (ty.bits - 1)) % 2 ^ ty.bits - 2 ^ (ty.bits - 1)
  else i % 2 ^ ty.bits

/-- One iteration of the loop body under machine (release-mode) semantics:
every arithmetic operation wraps to the type's range, and right shift is
floor division by `2 ^ s` (an arithmetic shift for signed types). -/
def cbrtStepWrap (ty : IntTy) (s : Nat) (st : Int × Int) : Int × Int :=
  let x := st.1
  let result := wrapVal ty (st.2 + st.2)
  let t1 := wrapVal ty (3 * result)
  let t2 := wrapVal ty (result + 1)
  let b := wrapVal ty (wrapVal ty (t1 * t2) + 1)
  if b ≤ x.fdiv (2 ^ s) then
    (wrapVal ty (x - wrapVal ty (b * 2 ^ s)), wrapVal ty (result + 1))
  else (x, result)

/-- `integer_cbrt_checked` under machine (release-mode) wrap-around
semantics. -/
def integer_cbrt_checked_wrap (ty : IntTy) (v : Int) : Option Int :=
  if v < 0 then none
  else if v = 0 then some 0
  else some (((shiftSequence ty.bits).foldl (fun st s => cbrtStepWrap ty s st) (v, 0)).2)

/-- One iteration of the loop body under overflow-trapping semantics:
`none` as soon as a shift amount reaches the bit width, an intermediate
value exceeds `maxVal`, or a subtraction would go below zero. -/
def cbrtStepStrict (ty : IntTy) (s : Nat) (st : Nat × Nat) : Option (Nat × Nat) :=
  if ty.bits ≤ s then none else
  let x := st.1
  let result := st.2 + st.2
  if ty.maxVal < result then none else
  let t1 := 3 * result
  if ty.maxVal < t1 then none else
  let t2 := result + 1
  if ty.maxVal < t2 then none else
  let t3 := t1 * t2
  if ty.maxVal < t3 then none else
  let b := t3 + 1
  if ty.maxVal < b then none else
  if b ≤ x >>> s then
    if ty.maxVal < b <<< s then none
    else if x < b <<< s then none
    else if ty.maxVal < result + 1 then none
    else some (x - b <<< s, result + 1)
  else some (x, result)

/-- `integer_cbrt_checked` under overflow-trapping semantics: the outer
`Option` is `none` exactly when some intermediate computation leaves the
type's range (a panic); the inner value is the function's result. -/
def integer_cbrt_checked_strict (ty : IntTy) (v : Int) : Option (Option Int) :=
  if v < 0 then some none
  else if v = 0 then some (some 0)
  else
    (((shiftSequence ty.bits).foldl (fun o s => o.bind (cbrtStepStrict ty s))
      (some (v.toNat, 0)))).map (fun st => some ((st.2 : Nat) : Int))

/-- The number of loop iterations performed on input `v` (the loop is
reached only for strictly positive input). -/
def integer_cbrt_loop_count (ty : IntTy) (v : Int) : Nat :=
  if v < 0 then 0
  else if v = 0 then 0
  else (shiftSequence ty.bits).foldl (fun c _ => c + 1) 0

/-- The digit-by-digit base-8 algorithm exactly as worded in the spec
(section 4.1): iterate `s` over `0, 3, 6, ...` up to the largest multiple
of 3 below `num_bits`, from most significant to least significant, which
is `ceil(num_bits / 3)` steps; at each step double the result, form
`candidate_threshold = 3 * result * (result + 1) + 1`, and if
`(remainder >> s) >= candidate_threshold` subtract
`candidate_threshold << s` from the remainder and increment the result. -/
def spec_cbrt_digits (numBits : Nat) (value : Nat) : Nat :=
  let steps := ((List.range ((numBits + 2) / 3)).map (fun i => 3 * i)).reverse
  (steps.foldl
    (fun (st : Nat × Nat) s =>
      let remainder := st.1
      let result := st.2 * 2
      let candidate_threshold := 3 * result * (result + 1) + 1
      if candidate_threshold ≤ remainder >>> s then
        (remainder - candidate_threshold <<< s, result + 1)
      else (remainder, result))
    (value, 0)).2

/-- Recursion principle matching the loop: `loopRec g k` runs the body `g`
at shift amounts `3*(k-1), 3*(k-2), ..., 3, 0`. -/
def loopRec {α : Type} (g : Nat → α → α) : Nat → α → α
  | 0, st => st
  | k + 1, st => loopRec g k (g (3 * k) st)

/-- `(0..W).step_by(3)` is the list `[3*0, 3*1, ..., 3*(ceil(W/3)-1)]`. -/
lemma filter_range_step3 (W : Nat) :
    (List.range W).filter (fun s => s % 3 == 0) =
      (List.range ((W + 2) / 3)).map (fun i => 3 * i) := by
  induction W with
  | zero => rfl
  | succ n ih =>
    rw [List.range_succ, List.filter_append, ih]
    by_cases h : n % 3 = 0
    · have h1 : (n + 1 + 2) / 3 = (n + 2) / 3 + 1 := by omega
      have h2 : 3 * ((n + 2) / 3) = n := by omega
      rw [h1, List.range_succ, List.map_append]
      simp [h, h2]
    · have h1 : (n + 1 + 2) / 3 = (n + 2) / 3 := by omega
      have h2 : (n % 3 == 0) = false := by simpa using h
      rw [h1]
      simp [List.filter_cons, h2]

/-- Folding over the reversed shift list is `loopRec`. -/
lemma foldl_revRangeMap {α : Type} (g : Nat → α → α) :
    ∀ (n : Nat) (st : α),
      (((List.range n).map (fun i => 3 * i)).reverse).foldl (fun a s => g s a) st =
        loopRec g n st := by
  intro n
  induction n with
  | zero => intro st; rfl
  | succ k ih =>
    intro st
    rw [List.range_succ, List.map_append, List.reverse_append]
    simp only [List.map_cons, List.map_nil, List.reverse_cons, List.reverse_nil,
      List.nil_append, List.singleton_append, List.foldl_cons]
    exact ih (g (3 * k) st)

lemma foldl_shiftSequence {α : Type} (g : Nat → α → α) (W : Nat) (st : α) :
    (shiftSequence W).foldl (fun a s => g s a) st = loopRec g ((W + 2) / 3) st := by
  rw [shiftSequence, filter_range_step3]
  exact foldl_revRangeMap g ((W + 2) / 3) st

lemma shiftSequence_length (W : Nat) : (shiftSequence W).length = (W + 2) / 3 := by
  rw [shiftSequence, filter_range_step3]
  simp

lemma foldl_count {α : Type} :
    ∀ (l : List α) (c : Nat), l.foldl (fun c _ => c + 1) c = c + l.length := by
  intro l
  induction l with
  | nil => intro c; simp
  | cons a t ih => intro c; rw [List.foldl_cons, ih]; simp; omega

lemma maxVal_ge_127 (ty : IntTy) (h8 : 8 ≤ ty.bits) : 127 ≤ ty.maxVal := by
  unfold IntTy.maxVal
  by_cases hs : ty.signed
  · rw [if_pos hs]
    have h : (128 : Nat) ≤ 2 ^ (ty.bits - 1) := by
      have := Nat.pow_le_pow_right (show 1 ≤ 2 by norm_num) (show 7 ≤ ty.bits - 1 by omega)
      simpa using this
    generalize 2 ^ (ty.bits - 1) = A at h ⊢
    omega
  · rw [if_neg hs]
    have h : (256 : Nat) ≤ 2 ^ ty.bits := by
      have := Nat.pow_le_pow_right (show 1 ≤ 2 by norm_num) h8
      simpa using this
    generalize 2 ^ ty.bits = A at h ⊢
    omega

lemma maxVal_lt_pow (ty : IntTy) : ty.maxVal < 2 ^ ty.bits := by
  unfold IntTy.maxVal
  by_cases hs : ty.signed
  · rw [if_pos hs]
    have h1 : 2 ^ (ty.bits - 1) ≤ 2 ^ ty.bits :=
      Nat.pow_le_pow_right (by norm_num) (by omega)
    have h2 : (1 : Nat) ≤ 2 ^ (ty.bits - 1) := Nat.one_le_two_pow
    generalize 2 ^ (ty.bits - 1) = A at h1 h2 ⊢
    generalize 2 ^ ty.bits = B at h1 ⊢
    omega
  · rw [if_neg hs]
    have h2 : (1 : Nat) ≤ 2 ^ ty.bits := Nat.one_le_two_pow
    generalize 2 ^ ty.bits = A at h2 ⊢
    omega

lemma wrapVal_natCast (ty : IntTy) (hb : 1 ≤ ty.bits) (n : Nat)
    (h : n ≤ ty.maxVal) : wrapVal ty (n : Int) = (n : Int) := by
  unfold wrapVal
  unfold IntTy.maxVal at h
  by_cases hs : ty.signed
  · rw [if_pos hs]
    rw [if_pos hs] at h
    have h1 : (1 : Nat) ≤ 2 ^ (ty.bits - 1) := Nat.one_le_two_pow
    have h2 : (n : Int) ≤ 2 ^ (ty.bits - 1) - 1 := by
      have := (Nat.cast_le (α := Int)).2 h
      rwa [Nat.cast_sub h1, Nat.cast_pow, Nat.cast_ofNat, Nat.cast_one] at this
    have h3 : (2 : Int) ^ (ty.bits - 1) * 2 = 2 ^ ty.bits := by
      rw [← pow_succ]
      congr 1
      omega
    have h4 : (0 : Int) ≤ (n : Int) + 2 ^ (ty.bits - 1) := by positivity
    have h5 : (n : Int) + 2 ^ (ty.bits - 1) < 2 ^ ty.bits := by
      have hp : (0 : Int) < 2 ^ (ty.bits - 1) := by positivity
      linarith [h2, h3]
    rw [Int.emod_eq_of_lt h4 h5]
    ring
  · rw [if_neg hs]
    rw [if_neg hs] at h
    have h1 : n < 2 ^ ty.bits := by
      have hh : (1 : Nat) ≤ 2 ^ ty.bits := Nat.one_le_two_pow
      generalize 2 ^ ty.bits = A at h hh ⊢
      omega
    have h2 : (n : Int) < 2 ^ ty.bits := by exact_mod_cast h1
    exact Int.emod_eq_of_lt (by positivity) h2

/-- `fdiv` of a natural-number cast by a power of two is the cast of
natural division (so both the logical and the arithmetic right shift of
a non-negative machine value). -/
lemma fdiv_natCast_pow (a s : Nat) :
    (a : Int).fdiv (2 ^ s) = ((a / 2 ^ s : Nat) : Int) := by
  have h : ((2 : Int) ^ s) = ((2 ^ s : Nat) : Int) := by push_cast; ring
  rw [h, ← Int.ofNat_fdiv]

/-- The candidate threshold `3*R*(R+1)+1` (with `R = 2*r` the doubled
partial root) fits in the type whenever `8*r^3` is bounded by some
representable value and the maximum is at least 127 (true from 8 bits
up). -/
lemma threshold_le (M r y : Nat) (hM : 127 ≤ M) (hy : 8 * r ^ 3 ≤ y) (hyM : y ≤ M) :
    12 * r ^ 2 + 6 * r + 1 ≤ M := by
  have hrM : 8 * r ^ 3 ≤ M := le_trans hy hyM
  rcases Nat.lt_or_ge r 3 with h | h
  · have hr : r = 0 ∨ r = 1 ∨ r = 2 := by omega
    rcases hr with rfl | rfl | rfl <;> norm_num <;> omega
  · have f1 : 3 * r ≤ r ^ 2 :=
      le_of_le_of_eq (Nat.mul_le_mul h (Nat.le_refl r)) (by ring)
    have f2 : 3 * r ^ 2 ≤ r ^ 3 :=
      le_of_le_of_eq (Nat.mul_le_mul h (Nat.le_refl (r ^ 2))) (by ring)
    generalize r ^ 2 = A at f1 f2 ⊢
    generalize r ^ 3 = B at f2 hrM ⊢
    omega

/-- One loop iteration, all three semantics at once.  If before the
iteration at shift `3*k` the partial root `r` is the floor cube root of
`v >> (3*(k+1))` and the remainder is `v - r^3 * 2^(3*(k+1))`, then after
the iteration the new partial root `r2` is the floor cube root of
`v >> (3*k)` with remainder `v - r2^3 * 2^(3*k)`; the wrapping and the
overflow-trapping semantics take the very same step. -/
lemma step_all (ty : IntTy) (h8 : 8 ≤ ty.bits) (k v r : Nat)
    (hv : v ≤ ty.maxVal) (hk : 3 * (k + 1) ≤ ty.bits + 2)
    (h1 : r ^ 3 ≤ v / 2 ^ (3 * (k + 1)))
    (h2 : v / 2 ^ (3 * (k + 1)) < (r + 1) ^ 3) :
    ∃ r2 : Nat,
      r2 ^ 3 ≤ v / 2 ^ (3 * k) ∧ v / 2 ^ (3 * k) < (r2 + 1) ^ 3 ∧
      cbrtStep (3 * k) (v - r ^ 3 * 2 ^ (3 * (k + 1)), r) =
        (v - r2 ^ 3 * 2 ^ (3 * k), r2) ∧
      cbrtStepWrap ty (3 * k) (((v - r ^ 3 * 2 ^ (3 * (k + 1)) : Nat) : Int), (r : Int)) =
        (((v - r2 ^ 3 * 2 ^ (3 * k) : Nat) : Int), (r2 : Int)) ∧
      cbrtStepStrict ty (3 * k) (v - r ^ 3 * 2 ^ (3 * (k + 1)), r) =
        some (v - r2 ^ 3 * 2 ^ (3 * k), r2) := by
  have hbits1 : 1 ≤ ty.bits := by omega
  have hM : 127 ≤ ty.maxVal := maxVal_ge_127 ty h8
  have hPpos : (0 : Nat) < 2 ^ (3 * k) := by positivity
  have hP1pos : (0 : Nat) < 2 ^ (3 * (k + 1)) := by positivity
  have hP8 : (2 : Nat) ^ (3 * (k + 1)) = 2 ^ (3 * k) * 8 := by
    rw [show 3 * (k + 1) = 3 * k + 3 by ring, pow_add]
    norm_num
  have hXle : r ^ 3 * 2 ^ (3 * (k + 1)) ≤ v := (Nat.le_div_iff_mul_le hP1pos).1 h1
  have hyy : v / 2 ^ (3 * (k + 1)) = v / 2 ^ (3 * k) / 8 := by
    rw [hP8, ← Nat.div_div_eq_div_mul]
  rw [hyy] at h1 h2
  have hy8 : 8 * r ^ 3 ≤ v / 2 ^ (3 * k) := by
    have h := (Nat.le_div_iff_mul_le (show (0 : Nat) < 8 by norm_num)).1 h1
    linarith
  have hyQ : v / 2 ^ (3 * k) < 8 * (r + 1) ^ 3 := by
    have h := (Nat.div_lt_iff_lt_mul (show (0 : Nat) < 8 by norm_num)).1 h2
    linarith
  have hyM : v / 2 ^ (3 * k) ≤ ty.maxVal := le_trans (Nat.div_le_self _ _) hv
  have hb : 12 * r ^ 2 + 6 * r + 1 ≤ ty.maxVal := threshold_le ty.maxVal r _ hM hy8 hyM
  set X := v - r ^ 3 * 2 ^ (3 * (k + 1)) with hX
  have hXv : X ≤ v := by rw [hX]; exact Nat.sub_le _ _
  have hXM : X ≤ ty.maxVal := le_trans hXv hv
  have hXalt : X = v - 2 ^ (3 * k) * (8 * r ^ 3) := by
    rw [hX]
    congr 1
    rw [hP8]; ring
  have hle2 : 2 ^ (3 * k) * (8 * r ^ 3) ≤ v := by
    have e : 2 ^ (3 * k) * (8 * r ^ 3) = r ^ 3 * 2 ^ (3 * (k + 1)) := by rw [hP8]; ring
    rw [e]; exact hXle
  have hXdiv : X / 2 ^ (3 * k) = v / 2 ^ (3 * k) - 8 * r ^ 3 := by
    rw [hXalt]
    exact Nat.sub_mul_div v (2 ^ (3 * k)) (8 * r ^ 3) hle2
  have hshr : X >>> (3 * k) = v / 2 ^ (3 * k) - 8 * r ^ 3 := by
    rw [Nat.shiftRight_eq_div_pow, hXdiv]
  have hb_eq : 3 * (r + r) * (r + r + 1) + 1 = 12 * r ^ 2 + 6 * r + 1 := by ring
  have hcube : (2 * r + 1) ^ 3 = 8 * r ^ 3 + (12 * r ^ 2 + 6 * r + 1) := by ring
  have h2r : r + r ≤ ty.maxVal := by
    generalize r ^ 2 = A at hb
    omega
  have h6r : 3 * (r + r) ≤ ty.maxVal := by
    generalize r ^ 2 = A at hb
    omega
  have h2r1 : r + r + 1 ≤ ty.maxVal := by
    generalize r ^ 2 = A at hb
    omega
  have hprodM : 3 * (r + r) * (r + r + 1) ≤ ty.maxVal := by
    have e : 3 * (r + r) * (r + r + 1) = 12 * r ^ 2 + 6 * r := by ring
    rw [e]
    generalize r ^ 2 = A at hb ⊢
    omega
  have hbM : 3 * (r + r) * (r + r + 1) + 1 ≤ ty.maxVal := by rw [hb_eq]; exact hb
  have hs_lt : ¬ ty.bits ≤ 3 * k := by omega
  by_cases hg : (2 * r + 1) ^ 3 ≤ v / 2 ^ (3 * k)
  · -- the digit is taken: r2 = 2*r + 1
    have hguard : 3 * (r + r) * (r + r + 1) + 1 ≤ X >>> (3 * k) := by
      rw [hshr, hb_eq]
      rw [hcube] at hg
      generalize 12 * r ^ 2 + 6 * r + 1 = B at hg ⊢
      generalize 8 * r ^ 3 = A at hg hy8 ⊢
      omega
    have hguardDiv : 3 * (r + r) * (r + r + 1) + 1 ≤ X / 2 ^ (3 * k) := by
      rw [← Nat.shiftRight_eq_div_pow]; exact hguard
    have hbP : (3 * (r + r) * (r + r + 1) + 1) * 2 ^ (3 * k) ≤ X :=
      (Nat.le_div_iff_mul_le hPpos).1 hguardDiv
    have hsubm : X - (3 * (r + r) * (r + r + 1) + 1) * 2 ^ (3 * k) =
        v - (2 * r + 1) ^ 3 * 2 ^ (3 * k) := by
      rw [hX, Nat.sub_sub]
      congr 1
      rw [hP8]; ring
    have hsnd : r + r + 1 = 2 * r + 1 := by ring
    refine ⟨2 * r + 1, hg, ?_, ?_, ?_, ?_⟩
    · have e : (2 * r + 1 + 1) ^ 3 = 8 * (r + 1) ^ 3 := by ring
      rw [e]; exact hyQ
    · -- exact semantics
      simp only [cbrtStep]
      rw [if_pos hguard, Nat.shiftLeft_eq, hsubm, hsnd]
    · -- wrapping semantics
      simp only [cbrtStepWrap]
      have e1 : ((r : Int) + (r : Int)) = ((r + r : Nat) : Int) := by push_cast; ring
      rw [e1, wrapVal_natCast ty hbits1 _ h2r]
      have e2 : (3 * ((r + r : Nat) : Int)) = ((3 * (r + r) : Nat) : Int) := by
        push_cast; ring
      rw [e2, wrapVal_natCast ty hbits1 _ h6r]
      have e3 : (((r + r : Nat) : Int) + 1) = ((r + r + 1 : Nat) : Int) := by
        push_cast; ring
      rw [e3, wrapVal_natCast ty hbits1 _ h2r1]
      have e4 : (((3 * (r + r) : Nat) : Int) * ((r + r + 1 : Nat) : Int)) =
          ((3 * (r + r) * (r + r + 1) : Nat) : Int) := by push_cast; ring
      rw [e4, wrapVal_natCast ty hbits1 _ hprodM]
      have e5 : (((3 * (r + r) * (r + r + 1) : Nat) : Int) + 1) =
          ((3 * (r + r) * (r + r + 1) + 1 : Nat) : Int) := by push_cast; ring
      rw [e5, wrapVal_natCast ty hbits1 _ hbM]
      rw [fdiv_natCast_pow]
      rw [if_pos ((Nat.cast_le (α := Int)).2 hguardDiv)]
      have e6 : (((3 * (r + r) * (r + r + 1) + 1 : Nat) : Int) * (2 : Int) ^ (3 * k)) =
          (((3 * (r + r) * (r + r + 1) + 1) * 2 ^ (3 * k) : Nat) : Int) := by
        push_cast; ring
      rw [e6, wrapVal_natCast ty hbits1 _ (le_trans hbP hXM)]
      have e7 : ((X : Int) - (((3 * (r + r) * (r + r + 1) + 1) * 2 ^ (3 * k) : Nat) : Int)) =
          ((X - (3 * (r + r) * (r + r + 1) + 1) * 2 ^ (3 * k) : Nat) : Int) :=
        (Nat.cast_sub hbP).symm
      rw [e7, wrapVal_natCast ty hbits1 _ (le_trans (Nat.sub_le _ _) hXM)]
      rw [hsubm, hsnd]
    · -- overflow-trapping semantics
      simp only [cbrtStepStrict]
      rw [if_neg hs_lt, if_neg (Nat.not_lt.2 h2r), if_neg (Nat.not_lt.2 h6r),
        if_neg (Nat.not_lt.2 h2r1), if_neg (Nat.not_lt.2 hprodM),
        if_neg (Nat.not_lt.2 hbM), if_pos hguard, Nat.shiftLeft_eq,
        if_neg (Nat.not_lt.2 (le_trans hbP hXM)), if_neg (Nat.not_lt.2 hbP),
        if_neg (Nat.not_lt.2 h2r1), hsubm, hsnd]
  · -- the digit is not taken: r2 = 2*r
    have hguard : ¬ (3 * (r + r) * (r + r + 1) + 1 ≤ X >>> (3 * k)) := by
      rw [hshr, hb_eq]
      rw [hcube] at hg
      generalize 12 * r ^ 2 + 6 * r + 1 = B at hg ⊢
      generalize 8 * r ^ 3 = A at hg hy8 ⊢
      omega
    have hguardDiv : ¬ (3 * (r + r) * (r + r + 1) + 1 ≤ X / 2 ^ (3 * k)) := by
      rw [← Nat.shiftRight_eq_div_pow]; exact hguard
    have hfst : X = v - (2 * r) ^ 3 * 2 ^ (3 * k) := by
      rw [hX]
      congr 1
      rw [hP8]; ring
    have hsnd : r + r = 2 * r := by ring
    refine ⟨2 * r, ?_, ?_, ?_, ?_, ?_⟩
    · have e : (2 * r) ^ 3 = 8 * r ^ 3 := by ring
      rw [e]; exact hy8
    · exact Nat.lt_of_not_le hg
    · simp only [cbrtStep]
      rw [if_neg hguard, hsnd]
      rw [hfst]
    · simp only [cbrtStepWrap]
      have e1 : ((r : Int) + (r : Int)) = ((r + r : Nat) : Int) := by push_cast; ring
      rw [e1, wrapVal_natCast ty hbits1 _ h2r]
      have e2 : (3 * ((r + r : Nat) : Int)) = ((3 * (r + r) : Nat) : Int) := by
        push_cast; ring
      rw [e2, wrapVal_natCast ty hbits1 _ h6r]
      have e3 : (((r + r : Nat) : Int) + 1) = ((r + r + 1 : Nat) : Int) := by
        push_cast; ring
      rw [e3, wrapVal_natCast ty hbits1 _ h2r1]
      have e4 : (((3 * (r + r) : Nat) : Int) * ((r + r + 1 : Nat) : Int)) =
          ((3 * (r + r) * (r + r + 1) : Nat) : Int) := by push_cast; ring
      rw [e4, wrapVal_natCast ty hbits1 _ hprodM]
      have e5 : (((3 * (r + r) * (r + r + 1) : Nat) : Int) + 1) =
          ((3 * (r + r) * (r + r + 1) + 1 : Nat) : Int) := by push_cast; ring
      rw [e5, wrapVal_natCast ty hbits1 _ hbM]
      rw [fdiv_natCast_pow]
      rw [if_neg (fun hc => hguardDiv ((Nat.cast_le (α := Int)).1 hc))]
      rw [hsnd, hfst]
    · simp only [cbrtStepStrict]
      rw [if_neg hs_lt, if_neg (Nat.not_lt.2 h2r), if_neg (Nat.not_lt.2 h6r),
        if_neg (Nat.not_lt.2 h2r1), if_neg (Nat.not_lt.2 hprodM),
        if_neg (Nat.not_lt.2 hbM), if_neg hguard, hsnd, hfst]

/-- The whole loop, all three semantics at once, by induction on the
number of remaining iterations. -/
lemma loop_all (ty : IntTy) (h8 : 8 ≤ ty.bits) :
    ∀ (k v r : Nat), v ≤ ty.maxVal → 3 * k ≤ ty.bits + 2 →
      r ^ 3 ≤ v / 2 ^ (3 * k) → v / 2 ^ (3 * k) < (r + 1) ^ 3 →
      ∃ R : Nat, R ^ 3 ≤ v ∧ v < (R + 1) ^ 3 ∧ R ≤ ty.maxVal ∧
        loopRec cbrtStep k (v - r ^ 3 * 2 ^ (3 * k), r) = (v - R ^ 3, R) ∧
        loopRec (cbrtStepWrap ty) k
          (((v - r ^ 3 * 2 ^ (3 * k) : Nat) : Int), (r : Int)) =
          (((v - R ^ 3 : Nat) : Int), (R : Int)) ∧
        loopRec (fun s o => o.bind (cbrtStepStrict ty s)) k
          (some (v - r ^ 3 * 2 ^ (3 * k), r)) = some (v - R ^ 3, R) := by
  intro k
  induction k with
  | zero =>
    intro v r hv _ hl hu
    have hl0 : r ^ 3 ≤ v := by simpa using hl
    have hu0 : v < (r + 1) ^ 3 := by simpa using hu
    have hrM : r ≤ ty.maxVal :=
      le_trans (Nat.le_self_pow (by norm_num) r) (le_trans hl0 hv)
    exact ⟨r, hl0, hu0, hrM, by simp [loopRec], by simp [loopRec], by simp [loopRec]⟩
  | succ k ih =>
    intro v r hv hk h1 h2
    obtain ⟨r2, g1, g2, he, hw, hs⟩ := step_all ty h8 k v r hv hk h1 h2
    obtain ⟨R, u1, u2, u3, ue, uw, us⟩ := ih v r2 hv (by omega) g1 g2
    refine ⟨R, u1, u2, u3, ?_, ?_, ?_⟩
    · simp only [loopRec]
      rw [he]
      exact ue
    · simp only [loopRec]
      rw [hw]
      exact uw
    · simp only [loopRec, Option.some_bind]
      rw [hs]
      exact us

/-- The loop of `integer_cbrt_checked` computes the floor cube root of any
representable value, in all three semantics. -/
lemma cbrtNat_all (ty : IntTy) (h8 : 8 ≤ ty.bits) (v : Nat) (hv : v ≤ ty.maxVal) :
    ∃ R : Nat, cbrtNat ty.bits v = R ∧ R ^ 3 ≤ v ∧ v < (R + 1) ^ 3 ∧ R ≤ ty.maxVal ∧
      ((shiftSequence ty.bits).foldl (fun st s => cbrtStepWrap ty s st) ((v : Int), 0)).2 =
        (R : Int) ∧
      ((shiftSequence ty.bits).foldl (fun o s => o.bind (cbrtStepStrict ty s))
        (some (v, 0))) = some (v - R ^ 3, R) := by
  have hK : 3 * ((ty.bits + 2) / 3) ≤ ty.bits + 2 := by omega
  have hbK : ty.bits ≤ 3 * ((ty.bits + 2) / 3) := by omega
  have hv0 : v / 2 ^ (3 * ((ty.bits + 2) / 3)) = 0 := by
    apply Nat.div_eq_of_lt
    calc v ≤ ty.maxVal := hv
      _ < 2 ^ ty.bits := maxVal_lt_pow ty
      _ ≤ 2 ^ (3 * ((ty.bits + 2) / 3)) := Nat.pow_le_pow_right (by norm_num) hbK
  obtain ⟨R, u1, u2, u3, ue, uw, us⟩ :=
    loop_all ty h8 ((ty.bits + 2) / 3) v 0 hv hK (by rw [hv0]; simp)
      (by rw [hv0]; norm_num)
  have einit : v - 0 ^ 3 * 2 ^ (3 * ((ty.bits + 2) / 3)) = v := by simp
  rw [einit] at ue uw us
  refine ⟨R, ?_, u1, u2, u3, ?_, ?_⟩
  · rw [cbrtNat, foldl_shiftSequence cbrtStep ty.bits (v, 0), ue]
  · rw [foldl_shiftSequence (cbrtStepWrap ty) ty.bits ((v : Int), 0)]
    rw [show ((0 : Int)) = ((0 : Nat) : Int) by norm_num, uw]
  · rw [foldl_shiftSequence (fun s o => o.bind (cbrtStepStrict ty s)) ty.bits
      (some (v, 0)), us]

/-- Full characterisation of `integer_cbrt_checked` (and its wrapping and
overflow-trapping semantics, and of `integer_cbrt`) on non-negative
representable input. -/
lemma checked_all (ty : IntTy) (h8 : 8 ≤ ty.bits) (v : Int) (h0 : 0 ≤ v)
    (hv : v ≤ (ty.maxVal : Int)) :
    ∃ R : Nat, integer_cbrt_checked ty v = some (R : Int) ∧
      ((R : Int)) ^ 3 ≤ v ∧ v < ((R : Int) + 1) ^ 3 ∧ R ≤ ty.maxVal ∧
      integer_cbrt_checked_wrap ty v = some (R : Int) ∧
      integer_cbrt_checked_strict ty v = some (some (R : Int)) ∧
      integer_cbrt ty v = Except.ok (R : Int) := by
  rcases eq_or_lt_of_le h0 with heq | hpos
  · have hv0 : v = 0 := heq.symm
    subst hv0
    refine ⟨0, ?_, ?_, ?_, ?_, ?_, ?_, ?_⟩
    · simp [integer_cbrt_checked]
    · norm_num
    · norm_num
    · exact Nat.zero_le _
    · simp [integer_cbrt_checked_wrap]
    · simp [integer_cbrt_checked_strict]
    · simp [integer_cbrt, integer_cbrt_checked]
  · have hne : ¬ v < 0 := not_lt.2 h0
    have hne0 : ¬ v = 0 := ne_of_gt hpos
    have hvn : ((v.toNat : Nat) : Int) = v := Int.toNat_of_nonneg h0
    have hnM : v.toNat ≤ ty.maxVal := by
      rw [← hvn] at hv
      exact_mod_cast hv
    obtain ⟨R, u1, u2, u3, u4, uw, us⟩ := cbrtNat_all ty h8 v.toNat hnM
    have hc : integer_cbrt_checked ty v = some (R : Int) := by
      simp only [integer_cbrt_checked]
      rw [if_neg hne, if_neg hne0, u1]
    refine ⟨R, hc, ?_, ?_, u4, ?_, ?_, ?_⟩
    · rw [← hvn]
      exact_mod_cast u2
    · rw [← hvn]
      exact_mod_cast u3
    · simp only [integer_cbrt_checked_wrap]
      rw [if_neg hne, if_neg hne0, ← hvn, uw]
    · simp only [integer_cbrt_checked_strict]
      rw [if_neg hne, if_neg hne0, us]
      rfl
    · simp only [integer_cbrt]
      rw [hc]

/-- The floor cube root is unique. -/
lemma cbrt_nat_unique (n a b : Nat) (h1 : a ^ 3 ≤ n) (h2 : n < (a + 1) ^ 3)
    (h3 : b ^ 3 ≤ n) (h4 : n < (b + 1) ^ 3) : a = b := by
  have hab : a < b + 1 :=
    (Nat.pow_lt_pow_iff_left (by norm_num)).1 (lt_of_le_of_lt h1 h4)
  have hba : b < a + 1 :=
    (Nat.pow_lt_pow_iff_left (by norm_num)).1 (lt_of_le_of_lt h3 h2)
  omega

lemma supported_bits (ty : IntTy) (h : Supported ty) : 8 ≤ ty.bits := by
  rcases h with h | h | h | h | h <;> omega

/-- On any non-negative input the checked operation succeeds and the
unchecked one unwraps the same value. -/
lemma checked_nonneg (ty : IntTy) (v : Int) (h0 : 0 ≤ v) :
    ∃ r : Int, integer_cbrt_checked ty v = some r ∧
      integer_cbrt ty v = Except.ok r := by
  have hne : ¬ v < 0 := not_lt.2 h0
  by_cases h : v = 0
  · refine ⟨0, ?_, ?_⟩
    · simp only [integer_cbrt_checked]
      rw [if_neg hne, if_pos h]
    · simp only [integer_cbrt, integer_cbrt_checked]
      rw [if_neg hne, if_pos h]
  · refine ⟨(cbrtNat ty.bits v.toNat : Int), ?_, ?_⟩
    · simp only [integer_cbrt_checked]
      rw [if_neg hne, if_neg h]
    · simp only [integer_cbrt, integer_cbrt_checked]
      rw [if_neg hne, if_neg h]

/-- C1: for every supported fixed-width integer type and every
non-negative representable value `v`, `integer_cbrt_checked v` returns
`some r` where `r` is the floor integer cube root: `r^3 ≤ v`, and if
`r+1` is representable then `(r+1)^3 > v`; if `r+1` were not
representable, `r` would be the largest representable value whose cube is
representable and at most `v`. -/
theorem C1_checked_returns_floor_cbrt (ty : IntTy) (hty : Supported ty) (v : Int)
    (h0 : 0 ≤ v) (hv : v ≤ (ty.maxVal : Int)) :
    ∃ r : Int, integer_cbrt_checked ty v = some r ∧ 0 ≤ r ∧ r ^ 3 ≤ v ∧
      (r + 1 ≤ (ty.maxVal : Int) → v < (r + 1) ^ 3) ∧
      ((ty.maxVal : Int) < r + 1 →
        ∀ w : Int, 0 ≤ w → w ≤ (ty.maxVal : Int) → w ^ 3 ≤ (ty.maxVal : Int) →
          w ^ 3 ≤ v → w ≤ r) := by
  obtain ⟨R, hc, hl, hu, hM, _, _, _⟩ :=
    checked_all ty (supported_bits ty hty) v h0 hv
  refine ⟨(R : Int), hc, by positivity, hl, fun _ => hu, ?_⟩
  intro hover w _ hwM _ _
  have hRM : (ty.maxVal : Int) ≤ (R : Int) := by linarith
  linarith

/-- C1 witness at the 64-bit unsigned type and input 511. -/
theorem C1_checked_returns_floor_cbrt_witness :
    Supported ⟨64, false⟩ ∧ (0 : Int) ≤ 511 ∧
      (511 : Int) ≤ (((⟨64, false⟩ : IntTy).maxVal : Nat) : Int) ∧
      (∃ r : Int, integer_cbrt_checked ⟨64, false⟩ 511 = some r ∧ 0 ≤ r ∧
        r ^ 3 ≤ 511 ∧
        (r + 1 ≤ (((⟨64, false⟩ : IntTy).maxVal : Nat) : Int) → 511 < (r + 1) ^ 3) ∧
        ((((⟨64, false⟩ : IntTy).maxVal : Nat) : Int) < r + 1 →
          ∀ w : Int, 0 ≤ w → w ≤ (((⟨64, false⟩ : IntTy).maxVal : Nat) : Int) →
            w ^ 3 ≤ (((⟨64, false⟩ : IntTy).maxVal : Nat) : Int) →
            w ^ 3 ≤ 511 → w ≤ r)) :=
  ⟨by decide, by norm_num, by decide,
    C1_checked_returns_floor_cbrt ⟨64, false⟩ (by decide) 511 (by norm_num) (by decide)⟩

/-- C2: for a signed type, every strictly negative value makes
`integer_cbrt_checked` return `none` and `integer_cbrt` fail with the
message "cannot calculate cube root of negative number"; an unsigned
type admits no negative representable value, so every representable
input of an unsigned type succeeds. -/
theorem C2_negative_input_fails (ty : IntTy) (v : Int) :
    (v < 0 → integer_cbrt_checked ty v = none ∧
      integer_cbrt ty v =
        Except.error "cannot calculate cube root of negative number") ∧
    (ty.signed = false → ty.inRange v →
      ∃ r : Int, integer_cbrt_checked ty v = some r ∧
        integer_cbrt ty v = Except.ok r) := by
  constructor
  · intro hneg
    have hc : integer_cbrt_checked ty v = none := by
      simp only [integer_cbrt_checked]
      rw [if_pos hneg]
    refine ⟨hc, ?_⟩
    simp only [integer_cbrt]
    rw [hc]
  · intro hs hr
    have h0 : 0 ≤ v := by
      have hmin := hr.1
      rw [IntTy.minVal, hs] at hmin
      simpa using hmin
    exact checked_nonneg ty v h0

/-- C2 witness: `i8` input `-5` fails, `u8` input `10` succeeds. -/
theorem C2_negative_input_fails_witness :
    (integer_cbrt_checked ⟨8, true⟩ (-5) = none ∧
      integer_cbrt ⟨8, true⟩ (-5) =
        Except.error "cannot calculate cube root of negative number") ∧
    (∃ r : Int, integer_cbrt_checked ⟨8, false⟩ 10 = some r ∧
      integer_cbrt ⟨8, false⟩ 10 = Except.ok r) :=
  ⟨(C2_negative_input_fails ⟨8, true⟩ (-5)).1 (by norm_num),
    (C2_negative_input_fails ⟨8, false⟩ 10).2 rfl (by constructor <;> decide)⟩

/-- C3: the concrete results the spec lists: `integer_cbrt 0 = 0` for
every supported type, `integer_cbrt 511 = 7` for every supported type
wide enough to represent 511, `integer_cbrt u64::MAX = 2642245` and
`integer_cbrt u128::MAX = 6981463658331`. -/
theorem C3_concrete_values (ty : IntTy) :
    (Supported ty → integer_cbrt ty 0 = Except.ok 0) ∧
    (Supported ty → 511 ≤ (ty.maxVal : Int) → integer_cbrt ty 511 = Except.ok 7) ∧
    integer_cbrt ⟨64, false⟩ 18446744073709551615 = Except.ok 2642245 ∧
    integer_cbrt ⟨128, false⟩ 340282366920938463463374607431768211455 =
      Except.ok 6981463658331 := by
  have key : ∀ (ty2 : IntTy), 8 ≤ ty2.bits → ∀ (v : Int) (c : Nat), 0 ≤ v →
      v ≤ (ty2.maxVal : Int) → ((c : Int)) ^ 3 ≤ v → v < ((c : Int) + 1) ^ 3 →
      integer_cbrt ty2 v = Except.ok ((c : Nat) : Int) := by
    intro ty2 h8 v c h0 hvM hc1 hc2
    obtain ⟨R, _, hl, hu, _, _, _, he⟩ := checked_all ty2 h8 v h0 hvM
    have hn : ((v.toNat : Nat) : Int) = v := Int.toNat_of_nonneg h0
    rw [← hn] at hl hu hc1 hc2
    have a1 : R ^ 3 ≤ v.toNat := by exact_mod_cast hl
    have a2 : v.toNat < (R + 1) ^ 3 := by exact_mod_cast hu
    have a3 : c ^ 3 ≤ v.toNat := by exact_mod_cast hc1
    have a4 : v.toNat < (c + 1) ^ 3 := by exact_mod_cast hc2
    have hRc : R = c := cbrt_nat_unique v.toNat R c a1 a2 a3 a4
    rw [← hRc]
    exact he
  refine ⟨?_, ?_, ?_, ?_⟩
  · intro _
    have hc : integer_cbrt_checked ty 0 = some 0 := by
      simp [integer_cbrt_checked]
    simp only [integer_cbrt]
    rw [hc]
  · intro hsupp h511
    have h := key ty (supported_bits ty hsupp) 511 7 (by norm_num) h511
      (by norm_num) (by norm_num)
    simpa using h
  · have h := key ⟨64, false⟩ (by norm_num) 18446744073709551615 2642245
      (by norm_num) (by decide) (by norm_num) (by norm_num)
    simpa using h
  · have h := key ⟨128, false⟩ (by norm_num) 340282366920938463463374607431768211455
      6981463658331 (by norm_num) (by decide) (by norm_num) (by norm_num)
    simpa using h

/-- C3 witness at the 16-bit unsigned type. -/
theorem C3_concrete_values_witness :
    integer_cbrt ⟨16, false⟩ 0 = Except.ok 0 ∧
      integer_cbrt ⟨16, false⟩ 511 = Except.ok 7 :=
  ⟨(C3_concrete_values ⟨16, false⟩).1 (by decide),
    (C3_concrete_values ⟨16, false⟩).2.1 (by decide) (by decide)⟩

/-- C4: for every positive input the implemented loop is exactly the
spec's digit-by-digit base-8 algorithm: the shift amounts are the
multiples of 3 below `num_bits` in descending order (`ceil(num_bits/3)`
iterations), the loop body is the spec's double/threshold/subtract step,
and the final result is the floor cube root. -/
theorem C4_loop_refines_spec_algorithm (W : Nat) (h8 : 8 ≤ W) (v : Nat)
    (_hpos : 0 < v) (hv : v < 2 ^ W) :
    shiftSequence W = ((List.range ((W + 2) / 3)).map (fun i => 3 * i)).reverse ∧
    (shiftSequence W).length = (W + 2) / 3 ∧
    spec_cbrt_digits W v = cbrtNat W v ∧
    (cbrtNat W v) ^ 3 ≤ v ∧ v < (cbrtNat W v + 1) ^ 3 := by
  have e : (⟨W, false⟩ : IntTy).maxVal = 2 ^ W - 1 := rfl
  have hty : v ≤ (⟨W, false⟩ : IntTy).maxVal := by
    rw [e]
    generalize 2 ^ W = A at hv ⊢
    omega
  obtain ⟨R, u1, u2, u3, _, _, _⟩ := cbrtNat_all ⟨W, false⟩ h8 v hty
  have u1c : cbrtNat W v = R := u1
  refine ⟨?_, shiftSequence_length W, ?_, ?_, ?_⟩
  · rw [shiftSequence, filter_range_step3]
  · simp only [spec_cbrt_digits, cbrtNat, shiftSequence, filter_range_step3]
    congr 1
    apply List.foldl_ext
    intro st s _
    simp only [cbrtStep]
    rw [show st.2 * 2 = st.2 + st.2 by ring]
  · rw [u1c]; exact u2
  · rw [u1c]; exact u3

/-- C4 witness at width 16 and input 511. -/
theorem C4_loop_refines_spec_algorithm_witness :
    shiftSequence 16 = ((List.range ((16 + 2) / 3)).map (fun i => 3 * i)).reverse ∧
    (shiftSequence 16).length = (16 + 2) / 3 ∧
    spec_cbrt_digits 16 511 = cbrtNat 16 511 ∧
    (cbrtNat 16 511) ^ 3 ≤ 511 ∧ 511 < (cbrtNat 16 511 + 1) ^ 3 :=
  C4_loop_refines_spec_algorithm 16 (by norm_num) 511 (by norm_num) (by norm_num)

/-- C5: on every supported type and non-negative representable input, no
intermediate computation leaves the type's range: the overflow-trapping
semantics does not trap and agrees with the exact-arithmetic result, and
the wrap-around (release-mode machine) semantics computes the same value
as exact integer arithmetic. -/
theorem C5_no_intermediate_overflow (ty : IntTy) (hty : Supported ty) (v : Int)
    (h0 : 0 ≤ v) (hv : v ≤ (ty.maxVal : Int)) :
    integer_cbrt_checked_strict ty v = some (integer_cbrt_checked ty v) ∧
    integer_cbrt_checked_wrap ty v = integer_cbrt_checked ty v := by
  obtain ⟨R, hc, _, _, _, hw, hs, _⟩ :=
    checked_all ty (supported_bits ty hty) v h0 hv
  exact ⟨by rw [hs, hc], by rw [hw, hc]⟩

/-- C5 witness at the 16-bit unsigned type and input 1000. -/
theorem C5_no_intermediate_overflow_witness :
    integer_cbrt_checked_strict ⟨16, false⟩ 1000 =
      some (integer_cbrt_checked ⟨16, false⟩ 1000) ∧
    integer_cbrt_checked_wrap ⟨16, false⟩ 1000 =
      integer_cbrt_checked ⟨16, false⟩ 1000 :=
  C5_no_intermediate_overflow ⟨16, false⟩ (by decide) 1000 (by norm_num) (by decide)

/-- C6: monotonicity: on every supported type, `a ≤ b` (both non-negative
representable) implies `integer_cbrt a ≤ integer_cbrt b`. -/
theorem C6_monotone (ty : IntTy) (hty : Supported ty) (a b : Int)
    (h0 : 0 ≤ a) (hab : a ≤ b) (hbM : b ≤ (ty.maxVal : Int)) :
    ∃ ra rb : Int, integer_cbrt ty a = Except.ok ra ∧
      integer_cbrt ty b = Except.ok rb ∧ ra ≤ rb := by
  have h8 := supported_bits ty hty
  obtain ⟨Ra, _, hla, _, _, _, _, hea⟩ :=
    checked_all ty h8 a h0 (le_trans hab hbM)
  obtain ⟨Rb, _, _, hub, _, _, _, heb⟩ :=
    checked_all ty h8 b (le_trans h0 hab) hbM
  refine ⟨(Ra : Int), (Rb : Int), hea, heb, ?_⟩
  have h1 : ((Ra : Int)) ^ 3 < ((Rb : Int) + 1) ^ 3 :=
    lt_of_le_of_lt (le_trans hla hab) hub
  have h2 : Ra ^ 3 < (Rb + 1) ^ 3 := by exact_mod_cast h1
  have h3 : Ra < Rb + 1 := (Nat.pow_lt_pow_iff_left (by norm_num)).1 h2
  have h4 : Ra ≤ Rb := Nat.lt_succ_iff.1 h3
  exact_mod_cast h4

/-- C6 witness at the 32-bit unsigned type, inputs 27 and 100. -/
theorem C6_monotone_witness :
    ∃ ra rb : Int, integer_cbrt ⟨32, false⟩ 27 = Except.ok ra ∧
      integer_cbrt ⟨32, false⟩ 100 = Except.ok rb ∧ ra ≤ rb :=
  C6_monotone ⟨32, false⟩ (by decide) 27 100 (by norm_num) (by norm_num) (by decide)

/-- C7: for every non-negative input (including zero) the checked
operation never fails and returns exactly the value the unchecked
operation returns. -/
theorem C7_checked_agrees_with_unchecked (ty : IntTy) (v : Int) (h0 : 0 ≤ v) :
    ∃ r : Int, integer_cbrt_checked ty v = some r ∧
      integer_cbrt ty v = Except.ok r :=
  checked_nonneg ty v h0

/-- C7 witness at the 8-bit signed type and input 27. -/
theorem C7_checked_agrees_with_unchecked_witness :
    ∃ r : Int, integer_cbrt_checked ⟨8, true⟩ 27 = some r ∧
      integer_cbrt ⟨8, true⟩ 27 = Except.ok r :=
  C7_checked_agrees_with_unchecked ⟨8, true⟩ 27 (by norm_num)

/-- C8: every call terminates (all the model functions are total), the
main loop runs exactly `ceil(num_bits / 3)` iterations — `(bits + 2) / 3`,
characterised by the last two conjuncts — for every strictly positive
input, and non-positive inputs perform no loop iteration. -/
theorem C8_iteration_count (ty : IntTy) (v : Int) :
    (0 < v → integer_cbrt_loop_count ty v = (ty.bits + 2) / 3) ∧
    (v ≤ 0 → integer_cbrt_loop_count ty v = 0) ∧
    ty.bits ≤ 3 * ((ty.bits + 2) / 3) ∧ 3 * ((ty.bits + 2) / 3) < ty.bits + 3 := by
  refine ⟨?_, ?_, by omega, by omega⟩
  · intro hpos
    have hne : ¬ v < 0 := by omega
    have hne0 : ¬ v = 0 := by omega
    simp only [integer_cbrt_loop_count]
    rw [if_neg hne, if_neg hne0, foldl_count, shiftSequence_length]
    omega
  · intro hle
    simp only [integer_cbrt_loop_count]
    by_cases h : v < 0
    · rw [if_pos h]
    · rw [if_neg h, if_pos (by omega)]

/-- C8 witness: on the 64-bit unsigned type a positive input runs 22
iterations and input 0 runs none. -/
theorem C8_iteration_count_witness :
    integer_cbrt_loop_count ⟨64, false⟩ 5 = 22 ∧
      integer_cbrt_loop_count ⟨64, false⟩ 0 = 0 :=
  ⟨(C8_iteration_count ⟨64, false⟩ 5).1 (by norm_num),
    (C8_iteration_count ⟨64, false⟩ 0).2.1 (by norm_num)⟩

/-- C9: round-trip on perfect cubes: for `r ≥ 0` with `r^3` representable,
`integer_cbrt (r^3) = r`; and for `r ≥ 1`, `integer_cbrt (r^3 - 1) = r - 1`. -/
theorem C9_cube_roundtrip (ty : IntTy) (hty : Supported ty) (r : Int) (h0 : 0 ≤ r)
    (hr : r ^ 3 ≤ (ty.maxVal : Int)) :
    integer_cbrt ty (r ^ 3) = Except.ok r ∧
    (1 ≤ r → integer_cbrt ty (r ^ 3 - 1) = Except.ok (r - 1)) := by
  have h8 := supported_bits ty hty
  have hm : ((r.toNat : Nat) : Int) = r := Int.toNat_of_nonneg h0
  constructor
  · obtain ⟨R, _, hl, hu, _, _, _, he⟩ :=
      checked_all ty h8 (r ^ 3) (by positivity) hr
    rw [← hm] at hl hu
    have a1 : R ^ 3 ≤ r.toNat ^ 3 := by exact_mod_cast hl
    have a2 : r.toNat ^ 3 < (R + 1) ^ 3 := by exact_mod_cast hu
    have hRr : R = r.toNat :=
      cbrt_nat_unique (r.toNat ^ 3) R r.toNat a1 a2 (le_refl _)
        (Nat.pow_lt_pow_left (by omega) (by norm_num))
    rw [hRr, hm] at he
    exact he
  · intro h1r
    have h13 : (1 : Int) ≤ r ^ 3 := by
      calc (1 : Int) = 1 ^ 3 := by norm_num
        _ ≤ r ^ 3 := by
            apply pow_le_pow_left₀ (by norm_num) h1r
    obtain ⟨R, _, hl, hu, _, _, _, he⟩ :=
      checked_all ty h8 (r ^ 3 - 1) (by linarith) (by linarith)
    have hm1 : 1 ≤ r.toNat := by
      have : ((1 : Nat) : Int) ≤ ((r.toNat : Nat) : Int) := by rw [hm]; exact_mod_cast h1r
      exact_mod_cast this
    have hlt : ((R : Nat) : Int) ^ 3 < r ^ 3 := lt_of_le_of_lt hl (by linarith)
    rw [← hm] at hlt
    have a1 : R ^ 3 < r.toNat ^ 3 := by exact_mod_cast hlt
    have a2 : R < r.toNat := (Nat.pow_lt_pow_iff_left (by norm_num)).1 a1
    have hge : r ^ 3 ≤ ((R : Nat) + 1 : Int) ^ 3 := by
      have hx : r ^ 3 - 1 < ((R : Nat) : Int) ^ 3 + 3 * ((R : Nat) : Int) ^ 2 +
          3 * ((R : Nat) : Int) + 1 := by
        have e : (((R : Nat) : Int) + 1) ^ 3 =
            ((R : Nat) : Int) ^ 3 + 3 * ((R : Nat) : Int) ^ 2 +
              3 * ((R : Nat) : Int) + 1 := by ring
        rw [← e]
        exact hu
      have e2 : (((R : Nat) : Int) + 1) ^ 3 =
          ((R : Nat) : Int) ^ 3 + 3 * ((R : Nat) : Int) ^ 2 +
            3 * ((R : Nat) : Int) + 1 := by ring
      rw [e2]
      linarith
    rw [← hm] at hge
    have a3 : r.toNat ^ 3 ≤ (R + 1) ^ 3 := by exact_mod_cast hge
    have a4 : r.toNat ≤ R + 1 := (Nat.pow_le_pow_iff_left (by norm_num)).1 a3
    have hRr : R = r.toNat - 1 := by omega
    have hcast : (((r.toNat - 1 : Nat)) : Int) = r - 1 := by
      rw [Nat.cast_sub hm1, hm]
      norm_num
    rw [hRr, hcast] at he
    exact he

/-- C9 witness at the 64-bit unsigned type with `r = 5`. -/
theorem C9_cube_roundtrip_witness :
    integer_cbrt ⟨64, false⟩ ((5 : Int) ^ 3) = Except.ok 5 ∧
    (1 ≤ (5 : Int) → integer_cbrt ⟨64, false⟩ ((5 : Int) ^ 3 - 1) = Except.ok (5 - 1)) :=
  C9_cube_roundtrip ⟨64, false⟩ (by decide) 5 (by norm_num) (by decide)

/-- C10: totality of the checked operation: on every representable input
of every supported type — negative signed values included — the
overflow-trapping semantics does not trap (no shift amount reaches the
bit width, no subtraction goes below zero, no intermediate leaves the
range) and its value is exactly `integer_cbrt_checked`. -/
theorem C10_checked_never_panics (ty : IntTy) (hty : Supported ty) (v : Int)
    (hr : ty.inRange v) :
    integer_cbrt_checked_strict ty v = some (integer_cbrt_checked ty v) := by
  rcases lt_or_le v 0 with hneg | h0
  · have hc : integer_cbrt_checked ty v = none := by
      simp only [integer_cbrt_checked]
      rw [if_pos hneg]
    rw [hc]
    simp only [integer_cbrt_checked_strict]
    rw [if_pos hneg]
  · obtain ⟨R, hc, _, _, _, _, hs, _⟩ :=
      checked_all ty (supported_bits ty hty) v h0 hr.2
    rw [hs, hc]

/-- C10 witness at the 8-bit signed type and a negative input. -/
theorem C10_checked_never_panics_witness :
    integer_cbrt_checked_strict ⟨8, true⟩ (-3) =
      some (integer_cbrt_checked ⟨8, true⟩ (-3)) :=
  C10_checked_never_panics ⟨8, true⟩ (by decide) (-3) (by constructor <;> decide)
